import Mathlib

/-!
Verification development for the Deriverse trading-system analysis repository.

The repository's README describes a canonical event-ingestion and PnL core
(normalizer, watermark tracker, deduplicator, position ledger, PnL engine)
living in a Python package (src/ingestion, src/analytics) that is not part of
the source snapshot; only its documentation and TypeScript plumbing are
present.  Those core components are therefore modelled from the specification
text.  The TypeScript utilities that are present (market-type inference and
the binary account parsers in export_to_csv.ts) are embedded directly from
their source.
-/

namespace Deriverse

/-- Modelled from the spec: the closed set of event kinds accepted by the
canonical event schema (section 3).  The Python EventNormalizer is missing
from the snapshot. -/
inductive EventType where
  | OPEN
  | PARTIAL_CLOSE
  | CLOSE
deriving DecidableEq, Repr

/-- Modelled from the spec: the side with which a position was opened
(long/buy versus short/sell). -/
inductive Side where
  | buy
  | sell
deriving DecidableEq, Repr

/-- Modelled from the spec: the unit of deduplication, a pair of the source
partition and the source-assigned sequence number (section 3). -/
structure SourceKey where
  source : String
  seq : Nat
deriving DecidableEq, Repr

/-- Modelled from the spec: the untrusted raw event record (section 3); any
field may be absent, hence every field is an Option.  The missing Python
ingestion package would carry this schema. -/
structure RawEvent where
  source : Option String
  sequenceNumber : Option Nat
  eventType : Option String
  trader : Option String
  market : Option String
  side : Option Side
  price : Option Int
  size : Option Int
  fee : Option Int
  timestamp : Option Nat
deriving DecidableEq, Repr

/-- Modelled from the spec: the validated, normalized event (section 3).
Monetary quantities are exact integers per the numeric policy. -/
structure CanonicalEvent where
  sourceKey : SourceKey
  eventType : EventType
  trader : String
  market : String
  side : Side
  price : Int
  size : Int
  fee : Int
  timestamp : Nat
deriving DecidableEq, Repr

/-- Modelled from the spec: the deterministic position identity, fixed by the
opening event (section 3). -/
structure PositionKey where
  trader : String
  market : String
  openSourceKey : SourceKey
deriving DecidableEq, Repr

/-- Modelled from the spec: the position lifecycle states (section 3). -/
inductive Status where
  | OPEN
  | PARTIALLY_CLOSED
  | CLOSED
deriving DecidableEq, Repr

/-- Modelled from the spec: the authoritative position record held by the
missing PositionLedger (section 3). -/
structure Position where
  key : PositionKey
  openTime : Nat
  side : Side
  entryPrice : Int
  initialSize : Int
  sizeRemaining : Int
  status : Status
  closeEvents : List SourceKey
deriving DecidableEq, Repr

/-- Modelled from the spec: one realized-PnL record per successfully applied
close or partial-close event (section 3). -/
structure RealizedPnLRecord where
  positionKey : PositionKey
  closeSourceKey : SourceKey
  closeTime : Nat
  closedSize : Int
  realizedPnl : Int
  feeCharged : Int
deriving DecidableEq, Repr

/-- Modelled from the spec: the reason codes of the error taxonomy
(section 7). -/
inductive ReasonCode where
  | MissingField
  | InvalidValue
  | DuplicateEvent
  | DuplicateOpen
  | CloseWithoutOpen
  | OverClose
  | DuplicatePosition
deriving DecidableEq, Repr

/-- Modelled from the spec: an append-only validation-log entry carrying the
source key (when the raw event had one) and a reason code (section 3). -/
structure LogEntry where
  sourceKey : Option SourceKey
  reason : ReasonCode
deriving DecidableEq, Repr

/-- Modelled from the spec: parsing of the untyped event-type string into the
closed set of recognized kinds (sections 3 and 4.1). -/
def parseEventType (s : String) : Option EventType :=
  if s = "OPEN" then some EventType.OPEN
  else if s = "PARTIAL_CLOSE" then some EventType.PARTIAL_CLOSE
  else if s = "CLOSE" then some EventType.CLOSE
  else none

/-- Modelled from the spec: the EventNormalizer contract (section 4.1), a pure
stateless function of one record.  It fails with MissingField when any
required field is absent, and with InvalidValue when size is nonpositive,
price is negative, or the event type is unrecognized. -/
def normalize (r : RawEvent) : Except ReasonCode CanonicalEvent :=
  match r.source, r.sequenceNumber, r.eventType, r.trader, r.market,
        r.side, r.price, r.size, r.fee, r.timestamp with
  | some src, some seq, some et, some tr, some mk, some sd, some pr,
    some sz, some fe, some ts =>
    match parseEventType et with
    | none => Except.error ReasonCode.InvalidValue
    | some ety =>
      if sz ≤ 0 then Except.error ReasonCode.InvalidValue
      else if pr < 0 then Except.error ReasonCode.InvalidValue
      else Except.ok
        { sourceKey := ⟨src, seq⟩, eventType := ety, trader := tr,
          market := mk, side := sd, price := pr, size := sz, fee := fe,
          timestamp := ts }
  | _, _, _, _, _, _, _, _, _, _ => Except.error ReasonCode.MissingField

/-- Modelled from the spec: the mutable per-run ledger-side state of the
missing pipeline: the deduplication seen-set, the position ledger, the
realized-PnL output, and the append-only validation log. -/
structure LedgerState where
  seen : List SourceKey
  positions : List Position
  pnl : List RealizedPnLRecord
  log : List LogEntry
deriving DecidableEq, Repr

/-- Modelled from the spec: ledger lookup of the (unique) position of a
trader in a market (sections 4.3 and 4.4). -/
def findPos (l : LedgerState) (t m : String) : Option Position :=
  l.positions.find? (fun p => decide (p.key.trader = t ∧ p.key.market = m))

/-- Modelled from the spec: the sign convention of realized PnL, +1 for
long/buy-opened positions and -1 for short/sell-opened (section 4.5). -/
def sideSign : Side → Int
  | Side.buy => 1
  | Side.sell => -1

/-- Modelled from the spec: the position created by an accepted OPEN event
(section 4.4). -/
def mkPosition (ce : CanonicalEvent) : Position :=
  { key := ⟨ce.trader, ce.market, ce.sourceKey⟩, openTime := ce.timestamp,
    side := ce.side, entryPrice := ce.price, initialSize := ce.size,
    sizeRemaining := ce.size, status := Status.OPEN, closeEvents := [] }

/-- Modelled from the spec: the realized-PnL record the PnLEngine emits for a
successfully applied close against position p (section 4.5). -/
def mkPnl (p : Position) (ce : CanonicalEvent) : RealizedPnLRecord :=
  { positionKey := p.key, closeSourceKey := ce.sourceKey,
    closeTime := ce.timestamp, closedSize := ce.size,
    realizedPnl := sideSign p.side * (ce.price - p.entryPrice) * ce.size - ce.fee,
    feeCharged := ce.fee }

/-- Modelled from the spec: handling of an accepted OPEN event: a duplicate
open (exact source key reprocessed, or a logically duplicate open for a
position that already exists for the trader and market) is rejected with
DuplicateOpen and logged; otherwise a new OPEN position is inserted and the
source key enters the seen-set (sections 4.3 and 4.4). -/
def applyOpenEvent (l : LedgerState) (ce : CanonicalEvent) : LedgerState :=
  if ce.sourceKey ∈ l.seen ∨ (findPos l ce.trader ce.market).isSome then
    { l with log := l.log ++ [⟨some ce.sourceKey, ReasonCode.DuplicateOpen⟩] }
  else
    { l with positions := l.positions ++ [mkPosition ce],
             seen := l.seen ++ [ce.sourceKey] }

/-- Modelled from the spec: the position after a successful close of ce.size
against it: remaining size decremented, status moved to PARTIALLY_CLOSED or
CLOSED, the close's source key appended (section 4.4). -/
def closePosition (p : Position) (ce : CanonicalEvent) : Position :=
  { p with sizeRemaining := p.sizeRemaining - ce.size,
           status := if p.sizeRemaining - ce.size = 0 then Status.CLOSED
                     else Status.PARTIALLY_CLOSED,
           closeEvents := p.closeEvents ++ [ce.sourceKey] }

/-- Modelled from the spec: the ledger mutation of a successful settlement:
the position is replaced in place, a realized-PnL record is appended, and the
source key enters the seen-set atomically with the mutation (sections 4.3
and 4.5). -/
def settleClose (l : LedgerState) (p : Position) (ce : CanonicalEvent) :
    LedgerState :=
  { l with
    positions := l.positions.map
      (fun q => if q.key = p.key then closePosition p ce else q),
    pnl := l.pnl ++ [mkPnl p ce],
    seen := l.seen ++ [ce.sourceKey] }

/-- Modelled from the spec: handling of a CLOSE or PARTIAL_CLOSE event: exact
duplicates are rejected with DuplicateEvent; a close with no matching open is
logged CloseWithoutOpen and skipped; an over-sized close is logged OverClose;
otherwise the settlement is applied (sections 4.3, 4.4 and 4.5). -/
def applyCloseEvent (l : LedgerState) (ce : CanonicalEvent) : LedgerState :=
  if ce.sourceKey ∈ l.seen then
    { l with log := l.log ++ [⟨some ce.sourceKey, ReasonCode.DuplicateEvent⟩] }
  else
    match findPos l ce.trader ce.market with
    | none =>
      { l with log := l.log ++ [⟨some ce.sourceKey, ReasonCode.CloseWithoutOpen⟩] }
    | some p =>
      if p.sizeRemaining < ce.size then
        { l with log := l.log ++ [⟨some ce.sourceKey, ReasonCode.OverClose⟩] }
      else
        settleClose l p ce

/-- Modelled from the spec: dispatch of an accepted canonical event on its
kind (sections 4.3 to 4.5). -/
def applyCanonical (l : LedgerState) (ce : CanonicalEvent) : LedgerState :=
  match ce.eventType with
  | EventType.OPEN => applyOpenEvent l ce
  | EventType.PARTIAL_CLOSE => applyCloseEvent l ce
  | EventType.CLOSE => applyCloseEvent l ce

/-- Modelled from the spec: the source key of a raw event when both its
source and sequence number are present (section 3). -/
def getSourceKey (r : RawEvent) : Option SourceKey :=
  match r.source, r.sequenceNumber with
  | some s, some n => some ⟨s, n⟩
  | _, _ => none

/-- Modelled from the spec: per-event processing: normalize, then either log
the schema violation or apply the canonical event (sections 4.1 and 4.6). -/
def processEvent (l : LedgerState) (r : RawEvent) : LedgerState :=
  match normalize r with
  | Except.error code => { l with log := l.log ++ [⟨getSourceKey r, code⟩] }
  | Except.ok ce => applyCanonical l ce

/-- Modelled from the spec: the persisted per-source watermark map, absent
from the snapshot together with the WatermarkTracker (section 4.2). -/
def Watermark : Type := List (String × Nat)

instance : DecidableEq Watermark := by
  unfold Watermark
  infer_instance

/-- Modelled from the spec: the WatermarkTracker load operation, returning 0
for an unseen source (section 4.2). -/
def load (wm : Watermark) (s : String) : Nat :=
  match wm.find? (fun p => decide (p.1 = s)) with
  | some p => p.2
  | none => 0

/-- Modelled from the spec: the WatermarkTracker advance operation, setting
the watermark only if the sequence number exceeds the current value and
silently ignoring regressions (section 4.2). -/
def advance (wm : Watermark) (s : String) (n : Nat) : Watermark :=
  if load wm s < n then (s, n) :: wm else wm

/-- Modelled from the spec: advancing the watermark on an event's source key
when the event has one (sections 4.2 and 4.6). -/
def advanceOn (wm : Watermark) (r : RawEvent) : Watermark :=
  match getSourceKey r with
  | some k => advance wm k.source k.seq
  | none => wm

/-- Modelled from the spec: the watermark bound: an event is considered when
the engine runs a full re-scan or its sequence number exceeds the loaded
watermark of its source; an event without a source key cannot be bounded and
is always considered (section 4.2). -/
def shouldConsider (wm : Watermark) (fullRescan : Bool) (r : RawEvent) : Bool :=
  fullRescan ||
    match getSourceKey r with
    | some k => decide (load wm k.source < k.seq)
    | none => true

/-- Modelled from the spec: the whole persisted engine state of a run: the
watermark checkpoint plus the ledger-side state (sections 4.6 and 6). -/
structure EngineState where
  watermark : Watermark
  ledger : LedgerState
deriving DecidableEq

/-- Modelled from the spec: one pipeline invocation (section 4.6): the
watermark is loaded once at run start, events are processed in batch order
with the watermark bound applied against the run-start value, and the commit
persists the watermark advanced over the batch together with the ledger
delta. -/
def runPipeline (fullRescan : Bool) (st : EngineState)
    (batch : List RawEvent) : EngineState :=
  { watermark := batch.foldl advanceOn st.watermark,
    ledger := batch.foldl
      (fun l e => if shouldConsider st.watermark fullRescan e
                  then processEvent l e else l)
      st.ledger }

/-- Modelled from the spec: the fresh engine state before any run. -/
def initState : EngineState :=
  { watermark := [], ledger := ⟨[], [], [], []⟩ }

/-! Embedding of inferMarketType from
.Archive_TS/src/indexer/inferMarket.ts. -/

/-- Substring test used to embed the JavaScript includes method: does the
haystack start with the needle. -/
def startsWithKw : List Char → List Char → Bool
  | [], _ => true
  | _ :: _, [] => false
  | a :: as, b :: bs => a == b && startsWithKw as bs

/-- Substring test used to embed the JavaScript includes method: does the
needle occur contiguously anywhere in the haystack. -/
def hasKw (needle : List Char) : List Char → Bool
  | [] => startsWithKw needle []
  | b :: bs => startsWithKw needle (b :: bs) || hasKw needle bs

/-- The lowercase space-joined log text that inferMarketType classifies,
embedding logs.join(' ').toLowerCase() from inferMarket.ts as a per-character
lowering of the joined text. -/
def joinedLogs (logs : List String) : List Char :=
  ((String.intercalate " " logs).toList).map Char.toLower

/-- The leverage keyword of inferMarket.ts. -/
def kwLeverage : List Char := "leverage".toList

/-- The liquidation keyword of inferMarket.ts. -/
def kwLiquidation : List Char := "liquidation".toList

/-- The position keyword of inferMarket.ts. -/
def kwPosition : List Char := "position".toList

/-- The swap keyword of inferMarket.ts. -/
def kwSwap : List Char := "swap".toList

/-- The spot keyword of inferMarket.ts. -/
def kwSpot : List Char := "spot".toList

/-- Embedded from inferMarket.ts: classifies a transaction's log lines into a
market type by keyword search over the lowercase joined text, with
precedence PERP, then DERIVATIVE, then SPOT, and UNKNOWN otherwise. -/
def inferMarketType (logs : List String) : String :=
  let joined := joinedLogs logs
  if hasKw kwLeverage joined || hasKw kwLiquidation joined then
    "PERP"
  else if hasKw kwPosition joined then
    "DERIVATIVE"
  else if hasKw kwSwap joined || hasKw kwSpot joined then
    "SPOT"
  else
    "UNKNOWN"

/-! Embedding of the binary account parsers from export_to_csv.ts.  A Node
Buffer is modelled as a list of byte values; each fixed-width read returns
none exactly when the read would run past the end of the buffer, which in
Node throws a RangeError that the surrounding try/catch of the source
converts into a null return. -/

/-- Fixed-width byte read of a Node Buffer: the n bytes starting at off, or
none when off + n exceeds the buffer length (Node raises ERR_OUT_OF_RANGE
there). -/
def readBytes (data : List Nat) (off n : Nat) : Option (List Nat) :=
  if off + n ≤ data.length then some ((data.drop off).take n) else none

/-- Little-endian value of a byte list. -/
def leValue (bs : List Nat) : Nat :=
  bs.foldr (fun b acc => b + 256 * acc) 0

/-- Embeds Buffer.readUInt32LE. -/
def readUInt32LE (data : List Nat) (off : Nat) : Option Nat :=
  (readBytes data off 4).map leValue

/-- Embeds Buffer.readBigUInt64LE. -/
def readBigUInt64LE (data : List Nat) (off : Nat) : Option Nat :=
  (readBytes data off 8).map leValue

/-- Embeds Buffer.readUInt8. -/
def readUInt8 (data : List Nat) (off : Nat) : Option Nat :=
  (readBytes data off 1).map leValue

/-- The record parsePositionData builds from a position account buffer. -/
structure PositionData where
  market_id : Nat
  position_size : Nat
  entry_price : Nat
  collateral : Nat
  flags : Nat
  raw_preview : List Nat
deriving DecidableEq, Repr

/-- The record parseOrderData builds from an order account buffer. -/
structure OrderData where
  price : Nat
  quantity : Nat
  order_type : Nat
  flags : Nat
  raw_preview : List Nat
deriving DecidableEq, Repr

/-- Embedded from export_to_csv.ts: parsePositionData guards buffers shorter
than 40 bytes, then reads the fixed offsets; any out-of-range read is caught
by the source's try/catch and yields null, modelled as none. -/
def parsePositionData (data : List Nat) : Option PositionData :=
  if data.length < 40 then none
  else
    match readUInt32LE data 12, readBigUInt64LE data 16,
          readBigUInt64LE data 24, readBigUInt64LE data 32,
          readUInt32LE data 8 with
    | some market_id, some position_size, some entry_price,
      some collateral, some flags =>
      some { market_id := market_id, position_size := position_size,
             entry_price := entry_price, collateral := collateral,
             flags := flags, raw_preview := data.take 48 }
    | _, _, _, _, _ => none

/-- Embedded from export_to_csv.ts: parseOrderData guards buffers shorter
than 32 bytes, then reads the fixed offsets including a one-byte read at
offset 32; any out-of-range read is caught by the source's try/catch and
yields null, modelled as none. -/
def parseOrderData (data : List Nat) : Option OrderData :=
  if data.length < 32 then none
  else
    match readBigUInt64LE data 16, readBigUInt64LE data 24,
          readUInt8 data 32, readUInt32LE data 12 with
    | some price, some quantity, some order_type, some flags =>
      some { price := price, quantity := quantity, order_type := order_type,
             flags := flags, raw_preview := data.take 40 }
    | _, _, _, _ => none

/-! Ledger invariants and auxiliary definitions. -/

/-- Total closed size attributed to a position key across the realized-PnL
records. -/
def sumClosed (recs : List RealizedPnLRecord) (k : PositionKey) : Int :=
  ((recs.filter (fun rec => decide (rec.positionKey = k))).map
    (fun rec => rec.closedSize)).sum

/-- Two positions collide when they share trader and market. -/
def tmEq (p q : Position) : Prop :=
  p.key.trader = q.key.trader ∧ p.key.market = q.key.market

instance (p q : Position) : Decidable (tmEq p q) := by
  unfold tmEq
  infer_instance

/-- The ledger holds at most one position per trader and market. -/
def DistinctTM (ps : List Position) : Prop :=
  ps.Pairwise (fun p q => ¬ tmEq p q)

/-- Per-position financial invariant: a positive initial size, a nonnegative
remaining size accounting exactly for the closed size already realized, and a
status that reads CLOSED precisely when nothing remains. -/
def PosOK (recs : List RealizedPnLRecord) (p : Position) : Prop :=
  0 < p.initialSize ∧ 0 ≤ p.sizeRemaining ∧
  sumClosed recs p.key + p.sizeRemaining = p.initialSize ∧
  (p.status = Status.CLOSED ↔ p.sizeRemaining = 0)

instance (recs : List RealizedPnLRecord) (p : Position) :
    Decidable (PosOK recs p) := by
  unfold PosOK
  infer_instance

/-- Ledger well-formedness: every position satisfies its financial invariant,
trader-market pairs are unique, and every realized-PnL record points at a
position present in the ledger. -/
def WF (l : LedgerState) : Prop :=
  (∀ p ∈ l.positions, PosOK l.pnl p) ∧
  DistinctTM l.positions ∧
  (∀ rec ∈ l.pnl, ∃ p ∈ l.positions, rec.positionKey = p.key)

instance (l : LedgerState) : Decidable (WF l) := by
  unfold WF DistinctTM
  infer_instance

/-- The position stored in the ledger under a given position key. -/
def posAt (l : LedgerState) (k : PositionKey) : Option Position :=
  l.positions.find? (fun q => decide (q.key = k))

/-- Numeric height of a status along the allowed lifecycle
OPEN to PARTIALLY_CLOSED to CLOSED. -/
def statusRank : Status → Nat
  | Status.OPEN => 0
  | Status.PARTIALLY_CLOSED => 1
  | Status.CLOSED => 2

/-- Claim-side predicate: some required field of the raw event is absent. -/
def missingFieldB (r : RawEvent) : Bool :=
  r.source.isNone || r.sequenceNumber.isNone || r.eventType.isNone ||
  r.trader.isNone || r.market.isNone || r.side.isNone || r.price.isNone ||
  r.size.isNone || r.fee.isNone || r.timestamp.isNone

/-- Claim-side predicate: a present field carries an invalid value: a
nonpositive size, a negative price, or an unrecognized event type. -/
def invalidValueB (r : RawEvent) : Bool :=
  r.size.any (fun sz => decide (sz ≤ 0)) ||
  r.price.any (fun pr => decide (pr < 0)) ||
  r.eventType.any (fun et => decide (parseEventType et = none))

/-! Concrete inputs used by scenario conjuncts and witnesses. -/

/-- A fully populated raw event of the mock source used in the concrete
scenarios. -/
def mkRawDemo (seq : Nat) (et : String) (price sz fee : Int) : RawEvent :=
  { source := some "mock", sequenceNumber := some seq, eventType := some et,
    trader := some "T1", market := some "A", side := some Side.buy,
    price := some price, size := some sz, fee := some fee,
    timestamp := some seq }

/-- The spec's duplicate-open scenario batch: OPEN(A,100,@10), a logically
duplicate OPEN, then CLOSE(A,100,@15) carrying the given fee. -/
def scenarioBatch (fee : Int) : List RawEvent :=
  [mkRawDemo 1 "OPEN" 10 100 0, mkRawDemo 2 "OPEN" 10 100 0,
   mkRawDemo 3 "CLOSE" 15 100 fee]

/-- The spec's partial-close scenario batch: OPEN of 100 at 10, a
PARTIAL_CLOSE of 40 at 12, then a CLOSE of 60 at 8. -/
def demoBatch : List RawEvent :=
  [mkRawDemo 1 "OPEN" 10 100 0, mkRawDemo 2 "PARTIAL_CLOSE" 12 40 1,
   mkRawDemo 3 "CLOSE" 8 60 1]

/-- The fully closed position demoBatch ends with. -/
def demoPos : Position :=
  { key := ⟨"T1", "A", ⟨"mock", 1⟩⟩, openTime := 1, side := Side.buy,
    entryPrice := 10, initialSize := 100, sizeRemaining := 0,
    status := Status.CLOSED,
    closeEvents := [⟨"mock", 2⟩, ⟨"mock", 3⟩] }

/-- The partially closed position after the first two demoBatch events. -/
def demoMid : Position :=
  { key := ⟨"T1", "A", ⟨"mock", 1⟩⟩, openTime := 1, side := Side.buy,
    entryPrice := 10, initialSize := 100, sizeRemaining := 60,
    status := Status.PARTIALLY_CLOSED, closeEvents := [⟨"mock", 2⟩] }

/-- The freshly opened position after the first demoBatch event. -/
def demoOpen : Position :=
  { key := ⟨"T1", "A", ⟨"mock", 1⟩⟩, openTime := 1, side := Side.buy,
    entryPrice := 10, initialSize := 100, sizeRemaining := 100,
    status := Status.OPEN, closeEvents := [] }

/-- The canonical form of the scenario's closing event with fee 7. -/
def demoCloseCe : CanonicalEvent :=
  { sourceKey := ⟨"mock", 3⟩, eventType := EventType.CLOSE, trader := "T1",
    market := "A", side := Side.buy, price := 15, size := 100, fee := 7,
    timestamp := 3 }

/-- A canonical closing event with a fresh sequence number, aimed at an
already CLOSED position. -/
def demoLateCloseCe : CanonicalEvent :=
  { sourceKey := ⟨"mock", 4⟩, eventType := EventType.CLOSE, trader := "T1",
    market := "A", side := Side.buy, price := 9, size := 10, fee := 0,
    timestamp := 4 }

/-- A raw record with the trader absent and a zero size, on which the missing
field and the invalid value overlap. -/
def c8bad : RawEvent :=
  { source := some "mock", sequenceNumber := some 1,
    eventType := some "OPEN", trader := none, market := some "A",
    side := some Side.buy, price := some 1, size := some 0, fee := some 0,
    timestamp := some 0 }

/-! Watermark lemmas. -/

theorem load_cons (s' : String) (n : Nat) (wm : Watermark) (s : String) :
    load ((s', n) :: wm) s = if s' = s then n else load wm s := by
  by_cases h : s' = s
  · simp [load, List.find?_cons_of_pos, h]
  · simp only [load]
    rw [List.find?_cons_of_neg]
    · simp [h]
    · simp [h]

theorem le_load_advance_self (wm : Watermark) (s : String) (n : Nat) :
    n ≤ load (advance wm s n) s := by
  unfold advance
  split
  · rw [load_cons]
    simp
  · omega

theorem load_advance_le (wm : Watermark) (s : String) (n : Nat) (t : String) :
    load wm t ≤ load (advance wm s n) t := by
  unfold advance
  split
  · rw [load_cons]
    split
    · rename_i hlt hst
      subst hst
      omega
    · exact le_refl _
  · exact le_refl _

theorem advance_eq_of_le (wm : Watermark) (s : String) (n : Nat)
    (h : n ≤ load wm s) : advance wm s n = wm := by
  unfold advance
  rw [if_neg]
  omega

theorem load_foldl_advanceOn_le (batch : List RawEvent) :
    ∀ (wm : Watermark) (t : String),
      load wm t ≤ load (batch.foldl advanceOn wm) t := by
  induction batch with
  | nil => intro wm t; exact le_refl _
  | cons e bs ih =>
    intro wm t
    rw [List.foldl_cons]
    refine le_trans ?_ (ih (advanceOn wm e) t)
    unfold advanceOn
    split
    · exact load_advance_le _ _ _ _
    · exact le_refl _

theorem seq_le_load_foldl (batch : List RawEvent) :
    ∀ (wm : Watermark) (e : RawEvent) (k : SourceKey),
      e ∈ batch → getSourceKey e = some k →
      k.seq ≤ load (batch.foldl advanceOn wm) k.source := by
  induction batch with
  | nil => intro wm e k he; exact absurd he (List.not_mem_nil e)
  | cons b bs ih =>
    intro wm e k he hk
    rw [List.foldl_cons]
    rcases List.mem_cons.mp he with rfl | hmem
    · refine le_trans ?_ (load_foldl_advanceOn_le bs (advanceOn wm e) k.source)
      unfold advanceOn
      rw [hk]
      exact le_load_advance_self _ _ _
    · exact ih (advanceOn wm b) e k hmem hk

theorem foldl_advanceOn_id (batch : List RawEvent) :
    ∀ (wm : Watermark),
      (∀ e ∈ batch, ∀ k, getSourceKey e = some k → k.seq ≤ load wm k.source) →
      batch.foldl advanceOn wm = wm := by
  induction batch with
  | nil => intro wm _; rfl
  | cons b bs ih =>
    intro wm h
    rw [List.foldl_cons]
    have hb : advanceOn wm b = wm := by
      unfold advanceOn
      split
      · rename_i k hk
        exact advance_eq_of_le wm k.source k.seq
          (h b (List.mem_cons_self b bs) k hk)
      · rfl
    rw [hb]
    exact ih wm (fun e he k hk => h e (List.mem_cons_of_mem b he) k hk)

theorem foldl_if_skip {α β : Type} (f : α → β → α) (c : β → Bool)
    (l : List β) :
    ∀ (a : α), (∀ e ∈ l, c e = false) →
      l.foldl (fun x e => if c e then f x e else x) a = a := by
  induction l with
  | nil => intro a _; rfl
  | cons e bs ih =>
    intro a h
    have hc : c e = false := h e (List.mem_cons_self e bs)
    rw [List.foldl_cons]
    simp only [hc, Bool.false_eq_true, if_false]
    exact ih a (fun x hx => h x (List.mem_cons_of_mem e hx))

/-- C6: the per-source watermark is monotonically non-decreasing: advancing
to N and then attempting to advance to a smaller M leaves the stored map
unchanged (the regression is silently ignored), and — whenever the prior
value did not already exceed N — the watermark for that source stays at N. -/
theorem watermark_monotone (wm : Watermark) (s : String) (N M : Nat)
    (h : M < N) :
    advance (advance wm s N) s M = advance wm s N ∧
    (load wm s ≤ N → load (advance (advance wm s N) s M) s = N) := by
  have hN : N ≤ load (advance wm s N) s := le_load_advance_self wm s N
  have h1 : advance (advance wm s N) s M = advance wm s N :=
    advance_eq_of_le _ s M (by omega)
  refine ⟨h1, fun hle => ?_⟩
  rw [h1]
  unfold advance
  split
  · rw [load_cons]
    simp
  · omega

/-- C6 witness: from a fresh tracker, advance to 5 and then regress to 3:
the map is unchanged and the watermark for the source stays at 5. -/
theorem watermark_monotone_witness :
    advance (advance ([] : Watermark) "mock" 5) "mock" 3 =
      advance ([] : Watermark) "mock" 5 ∧
    load (advance (advance ([] : Watermark) "mock" 5) "mock" 3) "mock" = 5 :=
  ⟨(watermark_monotone [] "mock" 5 3 (by decide)).1,
   (watermark_monotone [] "mock" 5 3 (by decide)).2 (by decide)⟩

/-- C2: the pipeline is idempotent: re-running it on an identical batch from
the checkpoint produced by the first (incremental) run changes nothing — the
same Position records, RealizedPnLRecord records and ValidationLog entries
come out, because every event of the batch now sits at or below the advanced
watermark and is skipped before it can be re-applied. -/
theorem pipeline_idempotent (st : EngineState) (batch : List RawEvent)
    (h : ∀ e ∈ batch, (getSourceKey e).isSome) :
    runPipeline false (runPipeline false st batch) batch =
      runPipeline false st batch := by
  have hcov : ∀ e ∈ batch, ∀ k, getSourceKey e = some k →
      k.seq ≤ load (runPipeline false st batch).watermark k.source := by
    intro e he k hk
    exact seq_le_load_foldl batch st.watermark e k he hk
  have hskip : ∀ e ∈ batch,
      shouldConsider (runPipeline false st batch).watermark false e = false := by
    intro e he
    obtain ⟨k, hk⟩ := Option.isSome_iff_exists.mp (h e he)
    have := hcov e he k hk
    simp [shouldConsider, hk]
    omega
  show (⟨batch.foldl advanceOn (runPipeline false st batch).watermark,
         batch.foldl _ (runPipeline false st batch).ledger⟩ : EngineState) =
       runPipeline false st batch
  have h1 : batch.foldl advanceOn (runPipeline false st batch).watermark =
      (runPipeline false st batch).watermark :=
    foldl_advanceOn_id batch _ hcov
  have h2 : batch.foldl
      (fun l e => if shouldConsider (runPipeline false st batch).watermark false e
                  then processEvent l e else l)
      (runPipeline false st batch).ledger =
      (runPipeline false st batch).ledger :=
    foldl_if_skip processEvent _ batch _ hskip
  rw [h1, h2]

/-! Ledger invariant lemmas. -/

theorem sumClosed_append (recs recs' : List RealizedPnLRecord)
    (k : PositionKey) :
    sumClosed (recs ++ recs') k = sumClosed recs k + sumClosed recs' k := by
  simp [sumClosed, List.filter_append]

theorem sumClosed_single (rec : RealizedPnLRecord) (k : PositionKey) :
    sumClosed [rec] k = if rec.positionKey = k then rec.closedSize else 0 := by
  by_cases h : rec.positionKey = k <;> simp [sumClosed, List.filter, h]

theorem sumClosed_eq_zero (recs : List RealizedPnLRecord) (k : PositionKey)
    (h : ∀ rec ∈ recs, rec.positionKey ≠ k) : sumClosed recs k = 0 := by
  unfold sumClosed
  have : recs.filter (fun rec => decide (rec.positionKey = k)) = [] := by
    rw [List.filter_eq_nil_iff]
    intro rec hrec
    simp [h rec hrec]
  rw [this]
  rfl

theorem findPos_some (l : LedgerState) (t m : String) (p : Position)
    (h : findPos l t m = some p) :
    p ∈ l.positions ∧ p.key.trader = t ∧ p.key.market = m := by
  refine ⟨List.mem_of_find?_eq_some h, ?_⟩
  have := List.find?_some h
  simpa using this

theorem findPos_none (l : LedgerState) (t m : String) :
    findPos l t m = none ↔
      ∀ p ∈ l.positions, ¬(p.key.trader = t ∧ p.key.market = m) := by
  simp [findPos, List.find?_eq_none]

theorem tm_symm : Symmetric (fun p q : Position => ¬ tmEq p q) := by
  intro a b h hc
  exact h ⟨hc.1.symm, hc.2.symm⟩

theorem tm_unique (ps : List Position) (hd : DistinctTM ps)
    (p q : Position) (hp : p ∈ ps) (hq : q ∈ ps) (h : tmEq p q) : p = q := by
  by_contra hne
  exact (List.Pairwise.forall tm_symm hd hp hq hne) h

theorem key_eq_tmEq (p q : Position) (h : p.key = q.key) : tmEq p q :=
  ⟨by rw [h], by rw [h]⟩

/-- The size and price bounds the normalizer guarantees on its output. -/
theorem normalize_ok_bounds (r : RawEvent) (ce : CanonicalEvent)
    (h : normalize r = Except.ok ce) : 0 < ce.size ∧ 0 ≤ ce.price := by
  unfold normalize at h
  split at h
  · split at h
    · exact absurd h (by simp)
    · split at h
      · exact absurd h (by simp)
      · split at h
        · exact absurd h (by simp)
        · rename_i hsz hpr
          cases h
          constructor
          · simpa using hsz
          · simpa using hpr
  · exact absurd h (by simp)

theorem posOK_mk (recs : List RealizedPnLRecord) (ce : CanonicalEvent)
    (hsz : 0 < ce.size) (hz : sumClosed recs (mkPosition ce).key = 0) :
    PosOK recs (mkPosition ce) := by
  refine ⟨hsz, le_of_lt hsz, ?_, ?_⟩
  · rw [hz]
    simp [mkPosition]
  · simp only [mkPosition]
    constructor
    · intro h
      exact absurd h (by simp)
    · intro h
      exact absurd h (by omega)

theorem wf_applyOpen (l : LedgerState) (ce : CanonicalEvent)
    (hwf : WF l) (hsz : 0 < ce.size) : WF (applyOpenEvent l ce) := by
  obtain ⟨hall, hdist, hrec⟩ := hwf
  unfold applyOpenEvent
  split
  · exact ⟨hall, hdist, hrec⟩
  · rename_i hcond
    push_neg at hcond
    have hfind : findPos l ce.trader ce.market = none := by
      cases hq : findPos l ce.trader ce.market
      · rfl
      · exact absurd (by simp [hq]) hcond.2
    have hnotm := (findPos_none l _ _).mp hfind
    refine ⟨?_, ?_, ?_⟩
    · intro p hp
      rcases List.mem_append.mp hp with hp | hp
      · exact hall p hp
      · have hpe : p = mkPosition ce := by simpa using hp
        subst hpe
        apply posOK_mk _ _ hsz
        apply sumClosed_eq_zero
        intro rec hr hk
        obtain ⟨p0, hp0, hkey⟩ := hrec rec hr
        have hkk : p0.key = (mkPosition ce).key := by rw [← hkey, hk]
        exact hnotm p0 hp0 ⟨by rw [hkk]; rfl, by rw [hkk]; rfl⟩
    · refine List.pairwise_append.mpr ⟨hdist, by simp, ?_⟩
      intro a ha b hb
      have hb' : b = mkPosition ce := by simpa using hb
      subst hb'
      intro ht
      exact hnotm a ha ⟨ht.1, ht.2⟩
    · intro rec hr
      obtain ⟨p0, hp0, hkey⟩ := hrec rec hr
      exact ⟨p0, List.mem_append_left _ hp0, hkey⟩

theorem closePosition_key (p : Position) (ce : CanonicalEvent) :
    (closePosition p ce).key = p.key := rfl

theorem settle_map_key (p : Position) (ce : CanonicalEvent) (q : Position) :
    ((fun q => if q.key = p.key then closePosition p ce else q) q).key =
      q.key := by
  by_cases h : q.key = p.key
  · simp [h, closePosition_key]
  · simp [h]

theorem settle_key_if (p : Position) (ce : CanonicalEvent) (q : Position) :
    (if q.key = p.key then closePosition p ce else q).key = q.key :=
  settle_map_key p ce q

theorem wf_settleClose (l : LedgerState) (p : Position) (ce : CanonicalEvent)
    (hwf : WF l) (hpmem : p ∈ l.positions)
    (hple : ce.size ≤ p.sizeRemaining) :
    WF (settleClose l p ce) := by
  obtain ⟨hall, hdist, hrec⟩ := hwf
  refine ⟨?_, ?_, ?_⟩
  · intro q' hq'
    obtain ⟨q, hq, rfl⟩ := List.mem_map.mp hq'
    obtain ⟨h1, h2, h3, h4⟩ := hall q hq
    by_cases hk : q.key = p.key
    · have hqp : q = p := tm_unique _ hdist q p hq hpmem (key_eq_tmEq _ _ hk)
      subst hqp
      rw [if_pos rfl]
      obtain ⟨g1, g2, g3, g4⟩ := hall q hq
      refine ⟨g1, by simp [closePosition]; omega, ?_, ?_⟩
      · simp only [settleClose]
        rw [closePosition_key, sumClosed_append, sumClosed_single]
        simp only [mkPnl, closePosition]
        rw [if_pos trivial]
        omega
      · simp only [closePosition]
        by_cases hrem : q.sizeRemaining - ce.size = 0 <;> simp [hrem]
    · rw [if_neg hk]
      refine ⟨h1, h2, ?_, h4⟩
      simp only [settleClose]
      rw [sumClosed_append, sumClosed_single]
      simp only [mkPnl]
      rw [if_neg (fun hh => hk hh.symm)]
      omega
  · apply List.Pairwise.map _ ?_ hdist
    intro a b hab hc
    apply hab
    have hc1 := hc.1
    have hc2 := hc.2
    rw [settle_map_key, settle_map_key] at hc1 hc2
    exact ⟨hc1, hc2⟩
  · intro rec hr
    rcases List.mem_append.mp hr with hr | hr
    · obtain ⟨p0, hp0, hkey⟩ := hrec rec hr
      refine ⟨_, List.mem_map_of_mem _ hp0, ?_⟩
      rw [hkey]
      exact (settle_map_key p ce p0).symm
    · have hre : rec = mkPnl p ce := by simpa using hr
      subst hre
      refine ⟨_, List.mem_map_of_mem
        (f := fun q => if q.key = p.key then closePosition p ce else q) hpmem, ?_⟩
      rw [settle_map_key]
      rfl

theorem wf_applyCloseEvent (l : LedgerState) (ce : CanonicalEvent)
    (hwf : WF l) : WF (applyCloseEvent l ce) := by
  unfold applyCloseEvent
  split
  · exact hwf
  · split
    · exact hwf
    · rename_i p hfind
      split
      · exact hwf
      · rename_i hover
        exact wf_settleClose l p ce hwf (findPos_some l _ _ p hfind).1
          (by omega)

theorem wf_applyCanonical (l : LedgerState) (ce : CanonicalEvent)
    (hwf : WF l) (hsz : 0 < ce.size) : WF (applyCanonical l ce) := by
  unfold applyCanonical
  split
  · exact wf_applyOpen l ce hwf hsz
  · exact wf_applyCloseEvent l ce hwf
  · exact wf_applyCloseEvent l ce hwf

theorem wf_processEvent (l : LedgerState) (e : RawEvent)
    (hwf : WF l) : WF (processEvent l e) := by
  unfold processEvent
  split
  · exact hwf
  · rename_i ce hn
    exact wf_applyCanonical l ce hwf (normalize_ok_bounds e ce hn).1

theorem wf_fold (c : RawEvent → Bool) (batch : List RawEvent) :
    ∀ (l : LedgerState), WF l →
      WF (batch.foldl (fun x e => if c e then processEvent x e else x) l) := by
  induction batch with
  | nil => intro l h; exact h
  | cons e bs ih =>
    intro l h
    rw [List.foldl_cons]
    apply ih
    by_cases hc : c e = true
    · rw [if_pos hc]
      exact wf_processEvent l e h
    · rw [if_neg hc]
      exact h

theorem wf_runPipeline (full : Bool) (st : EngineState)
    (batch : List RawEvent) (hwf : WF st.ledger) :
    WF (runPipeline full st batch).ledger :=
  wf_fold (fun e => shouldConsider st.watermark full e) batch st.ledger hwf

theorem wf_init : WF initState.ledger := by decide

/-- C3: conservation: after any pipeline run from a well-formed state, every
position's realized closed size is at most its initial size, with equality
exactly when the position's status is CLOSED. -/
theorem conservation (full : Bool) (st : EngineState) (batch : List RawEvent)
    (hwf : WF st.ledger) :
    ∀ p ∈ (runPipeline full st batch).ledger.positions,
      sumClosed (runPipeline full st batch).ledger.pnl p.key ≤ p.initialSize ∧
      (sumClosed (runPipeline full st batch).ledger.pnl p.key = p.initialSize ↔
        p.status = Status.CLOSED) := by
  intro p hp
  obtain ⟨h1, h2, h3, h4⟩ := (wf_runPipeline full st batch hwf).1 p hp
  refine ⟨by omega, ?_, ?_⟩
  · intro hs
    exact h4.mpr (by omega)
  · intro hc
    have := h4.mp hc
    omega

/-- C3 witness: the fully closed demo position realized exactly its initial
size of 100, and the conservation bound holds for it. -/
theorem conservation_witness :
    sumClosed (runPipeline false initState demoBatch).ledger.pnl demoPos.key ≤
      demoPos.initialSize ∧
    (sumClosed (runPipeline false initState demoBatch).ledger.pnl demoPos.key =
      demoPos.initialSize ↔ demoPos.status = Status.CLOSED) :=
  conservation false initState demoBatch wf_init demoPos (by decide)

/-! Status-transition lemmas. -/

theorem statusRank_le_two (s : Status) : statusRank s ≤ 2 := by
  cases s <;> simp [statusRank]

theorem posAt_applyCloseEvent (l : LedgerState) (ce : CanonicalEvent)
    (k : PositionKey) (p : Position) (hwf : WF l) (hsz : 0 < ce.size)
    (hp : posAt l k = some p) :
    ∃ q, posAt (applyCloseEvent l ce) k = some q ∧
      statusRank p.status ≤ statusRank q.status ∧
      (p.status = Status.CLOSED → q = p) := by
  unfold applyCloseEvent
  split
  · exact ⟨p, hp, le_refl _, fun _ => rfl⟩
  · split
    · exact ⟨p, hp, le_refl _, fun _ => rfl⟩
    · rename_i p0 hfind
      split
      · exact ⟨p, hp, le_refl _, fun _ => rfl⟩
      · rename_i hover
        obtain ⟨hmem0, ht0, hm0⟩ := findPos_some l _ _ p0 hfind
        have hpmem : p ∈ l.positions := List.mem_of_find?_eq_some hp
        have hmap : posAt (settleClose l p0 ce) k =
            (l.positions.find? (fun q => decide (q.key = k))).map
              (fun q => if q.key = p0.key then closePosition p0 ce else q) := by
          simp only [posAt, settleClose]
          rw [List.find?_map]
          have hpred : ((fun q : Position => decide (q.key = k)) ∘
              fun q => if q.key = p0.key then closePosition p0 ce else q) =
              fun q : Position => decide (q.key = k) := by
            funext q
            simp only [Function.comp]
            rw [settle_key_if]
          rw [hpred]
        rw [hmap]
        simp only [posAt] at hp
        rw [hp, Option.map_some']
        by_cases hk : p.key = p0.key
        · have hpp0 : p = p0 :=
            tm_unique _ hwf.2.1 p p0 hpmem hmem0 (key_eq_tmEq _ _ hk)
          subst hpp0
          have hnc : p.status ≠ Status.CLOSED := by
            intro hcl
            have h4 := (hwf.1 p hpmem).2.2.2
            have := h4.mp hcl
            omega
          refine ⟨closePosition p ce, by rw [if_pos rfl], ?_,
            fun hcl => absurd hcl hnc⟩
          simp only [closePosition]
          by_cases hrem : p.sizeRemaining - ce.size = 0
          · simp only [hrem, if_pos trivial]
            exact statusRank_le_two _
          · rw [if_neg hrem]
            cases hst : p.status
            · simp [statusRank]
            · simp [statusRank]
            · exact absurd hst hnc
        · rw [if_neg hk]
          exact ⟨p, rfl, le_refl _, fun _ => rfl⟩

theorem posAt_applyCanonical (l : LedgerState) (ce : CanonicalEvent)
    (k : PositionKey) (p : Position) (hwf : WF l) (hsz : 0 < ce.size)
    (hp : posAt l k = some p) :
    ∃ q, posAt (applyCanonical l ce) k = some q ∧
      statusRank p.status ≤ statusRank q.status ∧
      (p.status = Status.CLOSED → q = p) := by
  unfold applyCanonical
  split
  · unfold applyOpenEvent
    split
    · exact ⟨p, hp, le_refl _, fun _ => rfl⟩
    · refine ⟨p, ?_, le_refl _, fun _ => rfl⟩
      simp only [posAt] at hp ⊢
      rw [List.find?_append, hp]
      rfl
  · exact posAt_applyCloseEvent l ce k p hwf hsz hp
  · exact posAt_applyCloseEvent l ce k p hwf hsz hp

theorem posAt_processEvent (l : LedgerState) (e : RawEvent)
    (k : PositionKey) (p : Position) (hwf : WF l)
    (hp : posAt l k = some p) :
    ∃ q, posAt (processEvent l e) k = some q ∧
      statusRank p.status ≤ statusRank q.status ∧
      (p.status = Status.CLOSED → q = p) := by
  unfold processEvent
  split
  · exact ⟨p, hp, le_refl _, fun _ => rfl⟩
  · rename_i ce hn
    exact posAt_applyCanonical l ce k p hwf (normalize_ok_bounds e ce hn).1 hp

theorem posAt_fold (c : RawEvent → Bool) (k : PositionKey)
    (batch : List RawEvent) :
    ∀ (l : LedgerState) (p : Position), WF l → posAt l k = some p →
      ∃ q, posAt
          (batch.foldl (fun x e => if c e then processEvent x e else x) l)
          k = some q ∧
        statusRank p.status ≤ statusRank q.status ∧
        (p.status = Status.CLOSED → q = p) := by
  induction batch with
  | nil => intro l p _ hp; exact ⟨p, hp, le_refl _, fun _ => rfl⟩
  | cons e bs ih =>
    intro l p hwf hp
    rw [List.foldl_cons]
    by_cases hc : c e = true
    · rw [if_pos hc]
      obtain ⟨q1, hq1, hr1, hcl1⟩ := posAt_processEvent l e k p hwf hp
      obtain ⟨q2, hq2, hr2, hcl2⟩ :=
        ih (processEvent l e) q1 (wf_processEvent l e hwf) hq1
      refine ⟨q2, hq2, le_trans hr1 hr2, ?_⟩
      intro hcl
      have e1 : q1 = p := hcl1 hcl
      have e2 : q1.status = Status.CLOSED := by rw [e1]; exact hcl
      rw [hcl2 e2, e1]
    · rw [if_neg hc]
      exact ih l p hwf hp

theorem closed_close_rejected (l : LedgerState) (ce : CanonicalEvent)
    (p : Position) (hwf : WF l) (hsz : 0 < ce.size)
    (ht : ce.eventType = EventType.CLOSE ∨
          ce.eventType = EventType.PARTIAL_CLOSE)
    (hseen : ce.sourceKey ∉ l.seen)
    (hfind : findPos l ce.trader ce.market = some p)
    (hcl : p.status = Status.CLOSED) :
    applyCanonical l ce =
      { l with log := l.log ++ [⟨some ce.sourceKey, ReasonCode.OverClose⟩] } := by
  have hrem : p.sizeRemaining = 0 :=
    ((hwf.1 p (findPos_some l _ _ p hfind).1).2.2.2).mp hcl
  have hstep : applyCloseEvent l ce =
      { l with log := l.log ++ [⟨some ce.sourceKey, ReasonCode.OverClose⟩] } := by
    unfold applyCloseEvent
    rw [if_neg hseen]
    split
    · rename_i heq
      rw [hfind] at heq
      exact Option.noConfusion heq
    · rename_i p1 heq
      rw [hfind] at heq
      obtain rfl : p = p1 := Option.some.inj heq
      rw [if_pos (by omega)]
  rcases ht with ht | ht <;> simp only [applyCanonical, ht] <;> exact hstep

/-- C4: a position's status only ever moves up the lifecycle
OPEN, PARTIALLY_CLOSED, CLOSED (a single close may jump OPEN to CLOSED):
across any pipeline run the status rank never decreases and a CLOSED
position is left exactly as it was; moreover any further fresh close aimed
at a CLOSED position is rejected as an OverClose validation failure, leaving
everything but the log untouched. -/
theorem status_transition (full : Bool) (st : EngineState)
    (batch : List RawEvent) (k : PositionKey) (p q : Position)
    (hwf : WF st.ledger) (hp : posAt st.ledger k = some p)
    (hq : posAt (runPipeline full st batch).ledger k = some q) :
    (statusRank p.status ≤ statusRank q.status ∧
     (p.status = Status.CLOSED → q = p)) ∧
    (∀ (l : LedgerState) (ce : CanonicalEvent) (p0 : Position),
       WF l → 0 < ce.size →
       (ce.eventType = EventType.CLOSE ∨
        ce.eventType = EventType.PARTIAL_CLOSE) →
       ce.sourceKey ∉ l.seen →
       findPos l ce.trader ce.market = some p0 →
       p0.status = Status.CLOSED →
       applyCanonical l ce =
         { l with log := l.log ++ [⟨some ce.sourceKey, ReasonCode.OverClose⟩] }) := by
  constructor
  · obtain ⟨q', hq', hr, hcl⟩ :=
      posAt_fold (fun e => shouldConsider st.watermark full e) k batch
        st.ledger p hwf hp
    have hqq : q' = q := Option.some.inj (by rw [← hq']; exact hq)
    subst hqq
    exact ⟨hr, hcl⟩
  · intro l ce p0 hwfl hsz ht hseen hfind hcl
    exact closed_close_rejected l ce p0 hwfl hsz ht hseen hfind hcl

/-- C4 witness: running the last demo event over the partially closed state
moves the demo position from PARTIALLY_CLOSED to CLOSED, and a later fresh
close against the CLOSED position is rejected with OverClose. -/
theorem status_transition_witness :
    (statusRank demoMid.status ≤ statusRank demoPos.status ∧
     (demoMid.status = Status.CLOSED → demoPos = demoMid)) ∧
    (applyCanonical (runPipeline false initState demoBatch).ledger
        demoLateCloseCe =
      { (runPipeline false initState demoBatch).ledger with
        log := (runPipeline false initState demoBatch).ledger.log ++
          [⟨some demoLateCloseCe.sourceKey, ReasonCode.OverClose⟩] }) :=
  ⟨(status_transition false (runPipeline false initState (demoBatch.take 2))
      (demoBatch.drop 2) demoPos.key demoMid demoPos (by decide) (by decide)
      (by decide)).1,
   (status_transition false (runPipeline false initState (demoBatch.take 2))
      (demoBatch.drop 2) demoPos.key demoMid demoPos (by decide) (by decide)
      (by decide)).2
     (runPipeline false initState demoBatch).ledger demoLateCloseCe demoPos
     (by decide) (by decide) (Or.inl rfl) (by decide) (by decide) (by decide)⟩

/-- C2 witness: re-running the pipeline on the duplicate-open scenario batch
with fee 7 reproduces the first run's state exactly. -/
theorem pipeline_idempotent_witness :
    runPipeline false (runPipeline false initState (scenarioBatch 7))
        (scenarioBatch 7) =
      runPipeline false initState (scenarioBatch 7) :=
  pipeline_idempotent initState (scenarioBatch 7) (by decide)

/-- C1: for every successfully applied CLOSE or PARTIAL_CLOSE event the
engine appends exactly one realized-PnL record whose value is
side sign times (close price minus entry price) times closed size, minus the
event's fee, and on the spec's duplicate-open scenario batch the single
record carries (15 - 10) * 100 - fee. -/
theorem realized_pnl (l : LedgerState) (e : RawEvent) (ce : CanonicalEvent)
    (p : Position) (fee : Int)
    (hn : normalize e = Except.ok ce)
    (ht : ce.eventType = EventType.CLOSE ∨
          ce.eventType = EventType.PARTIAL_CLOSE)
    (hs : ce.sourceKey ∉ l.seen)
    (hf : findPos l ce.trader ce.market = some p)
    (hsz : ce.size ≤ p.sizeRemaining) :
    (processEvent l e).pnl = l.pnl ++ [mkPnl p ce] ∧
    (mkPnl p ce).realizedPnl =
      sideSign p.side * (ce.price - p.entryPrice) * ce.size - ce.fee ∧
    (runPipeline false initState (scenarioBatch fee)).ledger.pnl =
      [{ positionKey := ⟨"T1", "A", ⟨"mock", 1⟩⟩,
         closeSourceKey := ⟨"mock", 3⟩, closeTime := 3, closedSize := 100,
         realizedPnl := (15 - 10) * 100 - fee, feeCharged := fee }] ∧
    (runPipeline false initState (scenarioBatch fee)).ledger.log =
      [⟨some ⟨"mock", 2⟩, ReasonCode.DuplicateOpen⟩] := by
  refine ⟨?_, rfl, rfl, rfl⟩
  simp only [processEvent, hn]
  rcases ht with ht | ht <;> simp only [applyCanonical, ht] <;>
    (unfold applyCloseEvent
     rw [if_neg hs]
     split
     · rename_i heq
       rw [hf] at heq
       exact Option.noConfusion heq
     · rename_i p1 heq
       rw [hf] at heq
       obtain rfl : p = p1 := Option.some.inj heq
       rw [if_neg (by omega)]
       rfl)

/-- C1 witness: closing the freshly opened demo position with the scenario's
closing event appends exactly the predicted record, and the scenario batch
with fee 7 yields the single realized-PnL record and one DuplicateOpen log
entry. -/
theorem realized_pnl_witness :
    (processEvent (runPipeline false initState
        [mkRawDemo 1 "OPEN" 10 100 0]).ledger
      (mkRawDemo 3 "CLOSE" 15 100 7)).pnl =
      (runPipeline false initState [mkRawDemo 1 "OPEN" 10 100 0]).ledger.pnl ++
        [mkPnl demoOpen demoCloseCe] ∧
    (mkPnl demoOpen demoCloseCe).realizedPnl =
      sideSign demoOpen.side * (demoCloseCe.price - demoOpen.entryPrice) *
        demoCloseCe.size - demoCloseCe.fee ∧
    (runPipeline false initState (scenarioBatch 7)).ledger.pnl =
      [{ positionKey := ⟨"T1", "A", ⟨"mock", 1⟩⟩,
         closeSourceKey := ⟨"mock", 3⟩, closeTime := 3, closedSize := 100,
         realizedPnl := (15 - 10) * 100 - 7, feeCharged := 7 }] ∧
    (runPipeline false initState (scenarioBatch 7)).ledger.log =
      [⟨some ⟨"mock", 2⟩, ReasonCode.DuplicateOpen⟩] :=
  realized_pnl (runPipeline false initState [mkRawDemo 1 "OPEN" 10 100 0]).ledger
    (mkRawDemo 3 "CLOSE" 15 100 7) demoCloseCe demoOpen 7 rfl (Or.inl rfl)
    (by decide) (by decide) (by decide)

/-- C5: a fresh CLOSE or PARTIAL_CLOSE event whose trader and market match
no position in the ledger is skipped: the seen-set, the positions and the
realized-PnL output are left unchanged and exactly one CloseWithoutOpen
entry is appended to the validation log. -/
theorem close_without_open (l : LedgerState) (e : RawEvent)
    (ce : CanonicalEvent)
    (hn : normalize e = Except.ok ce)
    (ht : ce.eventType = EventType.CLOSE ∨
          ce.eventType = EventType.PARTIAL_CLOSE)
    (hs : ce.sourceKey ∉ l.seen)
    (hf : findPos l ce.trader ce.market = none) :
    processEvent l e =
      { l with log := l.log ++
          [⟨some ce.sourceKey, ReasonCode.CloseWithoutOpen⟩] } := by
  simp only [processEvent, hn]
  rcases ht with ht | ht <;> simp only [applyCanonical, ht] <;>
    (unfold applyCloseEvent
     rw [if_neg hs]
     split
     · rfl
     · rename_i p1 heq
       rw [hf] at heq
       exact Option.noConfusion heq)

/-- C5 witness: a close with no prior open against the empty ledger is
skipped with a single CloseWithoutOpen log entry. -/
theorem close_without_open_witness :
    processEvent initState.ledger (mkRawDemo 1 "CLOSE" 15 100 0) =
      { initState.ledger with log := initState.ledger.log ++
          [⟨some ⟨"mock", 1⟩, ReasonCode.CloseWithoutOpen⟩] } :=
  close_without_open initState.ledger (mkRawDemo 1 "CLOSE" 15 100 0)
    { sourceKey := ⟨"mock", 1⟩, eventType := EventType.CLOSE, trader := "T1",
      market := "A", side := Side.buy, price := 15, size := 100, fee := 0,
      timestamp := 1 }
    rfl (Or.inl rfl) (by decide) (by decide)

/-- C8 counterexample: on a record with the trader absent and a zero size
the normalizer answers MissingField, so InvalidValue does not hold exactly
when a value is bad: the two exactly-when characterizations cannot hold
together. -/
theorem normalize_exact_iff_fails :
    ¬ ((normalize c8bad = Except.error ReasonCode.MissingField ↔
          missingFieldB c8bad = true) ∧
       (normalize c8bad = Except.error ReasonCode.InvalidValue ↔
          invalidValueB c8bad = true)) := by
  intro h
  have hbad : invalidValueB c8bad = true := by decide
  have hiv := h.2.mpr hbad
  have hmf : normalize c8bad = Except.error ReasonCode.MissingField := rfl
  rw [hmf] at hiv
  simp at hiv

/-- C8 (amended): normalize answers MissingField exactly when a required
field is absent; on records with all fields present it answers InvalidValue
exactly when the size is nonpositive, the price negative or the event type
unrecognized, and otherwise returns a canonical event — always as a result
value of the pure function. -/
theorem normalize_errors (r : RawEvent) :
    (normalize r = Except.error ReasonCode.MissingField ↔
      missingFieldB r = true) ∧
    (missingFieldB r = false →
      (normalize r = Except.error ReasonCode.InvalidValue ↔
        invalidValueB r = true)) ∧
    (missingFieldB r = false → invalidValueB r = false →
      ∃ ce, normalize r = Except.ok ce) := by
  obtain ⟨s1, s2, s3, s4, s5, s6, s7, s8, s9, s10⟩ := r
  cases s1 with
  | none => simp [normalize, missingFieldB]
  | some v1 =>
  cases s2 with
  | none => simp [normalize, missingFieldB]
  | some v2 =>
  cases s3 with
  | none => simp [normalize, missingFieldB]
  | some v3 =>
  cases s4 with
  | none => simp [normalize, missingFieldB]
  | some v4 =>
  cases s5 with
  | none => simp [normalize, missingFieldB]
  | some v5 =>
  cases s6 with
  | none => simp [normalize, missingFieldB]
  | some v6 =>
  cases s7 with
  | none => simp [normalize, missingFieldB]
  | some v7 =>
  cases s8 with
  | none => simp [normalize, missingFieldB]
  | some v8 =>
  cases s9 with
  | none => simp [normalize, missingFieldB]
  | some v9 =>
  cases s10 with
  | none => simp [normalize, missingFieldB]
  | some v10 =>
  cases hp : parseEventType v3 with
  | none => simp [normalize, missingFieldB, invalidValueB, hp]
  | some ety =>
    by_cases h8 : v8 ≤ 0
    · simp [normalize, missingFieldB, invalidValueB, hp, h8]
    · by_cases h7 : v7 < 0
      · simp [normalize, missingFieldB, invalidValueB, hp, h8, h7]
      · simp [normalize, missingFieldB, invalidValueB, hp, h8, h7]

/-- C8 witness: on a fully populated valid record the amended
characterization evaluates as expected. -/
theorem normalize_errors_witness :
    (normalize (mkRawDemo 1 "OPEN" 10 100 0) =
        Except.error ReasonCode.MissingField ↔
      missingFieldB (mkRawDemo 1 "OPEN" 10 100 0) = true) ∧
    (normalize (mkRawDemo 1 "OPEN" 10 100 0) =
        Except.error ReasonCode.InvalidValue ↔
      invalidValueB (mkRawDemo 1 "OPEN" 10 100 0) = true) ∧
    (∃ ce, normalize (mkRawDemo 1 "OPEN" 10 100 0) = Except.ok ce) :=
  ⟨(normalize_errors (mkRawDemo 1 "OPEN" 10 100 0)).1,
   (normalize_errors (mkRawDemo 1 "OPEN" 10 100 0)).2.1 (by decide),
   (normalize_errors (mkRawDemo 1 "OPEN" 10 100 0)).2.2 (by decide) (by decide)⟩

/-- C9: the keyword classification of inferMarketType is total and follows
the precedence PERP over DERIVATIVE over SPOT: leverage or liquidation in
the lowercase joined logs forces PERP regardless of the other keywords,
position without those gives DERIVATIVE, swap or spot alone give SPOT, and
UNKNOWN appears exactly when no keyword occurs. -/
theorem inferMarketType_spec (logs : List String) :
    ((hasKw kwLeverage (joinedLogs logs) = true ∨
      hasKw kwLiquidation (joinedLogs logs) = true) →
        inferMarketType logs = "PERP") ∧
    (hasKw kwLeverage (joinedLogs logs) = false →
     hasKw kwLiquidation (joinedLogs logs) = false →
     hasKw kwPosition (joinedLogs logs) = true →
        inferMarketType logs = "DERIVATIVE") ∧
    (hasKw kwLeverage (joinedLogs logs) = false →
     hasKw kwLiquidation (joinedLogs logs) = false →
     hasKw kwPosition (joinedLogs logs) = false →
     (hasKw kwSwap (joinedLogs logs) = true ∨
      hasKw kwSpot (joinedLogs logs) = true) →
        inferMarketType logs = "SPOT") ∧
    (inferMarketType logs = "UNKNOWN" ↔
      (hasKw kwLeverage (joinedLogs logs) = false ∧
       hasKw kwLiquidation (joinedLogs logs) = false ∧
       hasKw kwPosition (joinedLogs logs) = false ∧
       hasKw kwSwap (joinedLogs logs) = false ∧
       hasKw kwSpot (joinedLogs logs) = false)) := by
  cases h1 : hasKw kwLeverage (joinedLogs logs) <;>
  cases h2 : hasKw kwLiquidation (joinedLogs logs) <;>
  cases h3 : hasKw kwPosition (joinedLogs logs) <;>
  cases h4 : hasKw kwSwap (joinedLogs logs) <;>
  cases h5 : hasKw kwSpot (joinedLogs logs) <;>
    simp [inferMarketType, h1, h2, h3, h4, h5]

/-- C9 witness: logs containing leverage together with position, swap and
spot still classify as PERP. -/
theorem inferMarketType_spec_witness :
    inferMarketType ["Leverage 5x", "position swap spot"] = "PERP" :=
  (inferMarketType_spec ["Leverage 5x", "position swap spot"]).1
    (Or.inl (by decide))

/-- C10: the account parsers are total: parsePositionData returns null
exactly on buffers shorter than 40 bytes and parseOrderData exactly on
buffers shorter than 33 bytes (its 32-byte guard passes at exactly 32 bytes
but the one-byte read at offset 32 then fails inside the try/catch); on
every other buffer each returns a record, and neither ever propagates an
exception. -/
theorem parsers_never_throw (data : List Nat) :
    (parsePositionData data = none ↔ data.length < 40) ∧
    (parseOrderData data = none ↔ data.length < 33) := by
  constructor
  · by_cases h : data.length < 40
    · simp [parsePositionData, h]
    · have h1 : 12 + 4 ≤ data.length := by omega
      have h2 : 16 + 8 ≤ data.length := by omega
      have h3 : 24 + 8 ≤ data.length := by omega
      have h4 : 32 + 8 ≤ data.length := by omega
      have h5 : 8 + 4 ≤ data.length := by omega
      simp [parsePositionData, h, readUInt32LE, readBigUInt64LE, readBytes,
        h1, h2, h3, h4, h5]
  · by_cases h : data.length < 32
    · simp [parseOrderData, h]
      omega
    · have hq1 : 16 + 8 ≤ data.length := by omega
      have hq2 : 24 + 8 ≤ data.length := by omega
      have hq3 : 12 + 4 ≤ data.length := by omega
      by_cases h33 : 32 + 1 ≤ data.length
      · simp [parseOrderData, h, readUInt8, readBigUInt64LE, readUInt32LE,
          readBytes, hq1, hq2, hq3, h33]
      · simp [parseOrderData, h, readUInt8, readBigUInt64LE, readUInt32LE,
          readBytes, hq1, hq2, hq3, h33]
        omega

/-- C10 witness: a 32-byte buffer passes parseOrderData's guard but still
yields null through the caught out-of-range read at offset 32. -/
theorem parsers_never_throw_witness :
    parseOrderData (List.replicate 32 0) = none :=
  ((parsers_never_throw (List.replicate 32 0)).2).mpr (by decide)

end Deriverse
